import Mathlib

/-!
Verification of the `DeserializeOrdered` derive macro.

Shallow embedding of `json-array-derive`, a derive macro that lets a struct
be deserialized from a JSON array with explicit per-field positions given by
`#[order(n)]` attributes.

The macro-generated code (`src/json-array-derive/src/lib.rs`) is embedded as
Lean functions:

* `fieldInfo` — the metadata-extraction loop over the struct's fields
  (the panics on a missing or invalid `#[order(n)]` attribute are modelled
  as `Except.error`);
* `maxIndex` — `field_info.iter().map(index).max().unwrap_or(0)`;
* `readLoop` — the `while let Some(value) = seq.next_element()` loop of
  `visit_seq`, filling the position buffer and counting elements;
* `decodeFields` — the `#(#field_mapping),*` struct literal: each field is
  converted from `array_elements[idx]` in declaration order, the first
  failure aborting via `?`;
* `decode` — the whole `visit_seq` body;
* `deserialize` — `deserializer.deserialize_seq(ArrayVisitor { .. })`
  applied to a `serde_json::Value` input.

Machine integers: the positions are `usize` literals taken from attributes;
they are modelled as `Nat` (the generated code never does arithmetic on them
besides `max` and `+ 1`, which cannot overflow for any compilable struct).
-/

set_option autoImplicit false

namespace JsonArrayDerive

/-- A JSON value, the embedding of `serde_json::Value`.  Numbers are
modelled as integers; the distinction among numeric representations is
irrelevant to the generation logic being verified. -/
inductive JVal where
  | null
  | bool (b : Bool)
  | num (n : Int)
  | str (s : String)
  | arr (elems : List JVal)
  | obj (fields : List (String × JVal))

/-- The serde "unexpected type" description of a value, used when a
non-sequence input reaches `deserialize_seq`. -/
def jvalKind : JVal → String
  | .null => "null"
  | .bool _ => "boolean"
  | .num _ => "number"
  | .str _ => "string"
  | .arr _ => "sequence"
  | .obj _ => "map"

/-- One field of a record schema: the field's name, the array position
declared by its `#[order(n)]` attribute, and the conversion from the
buffered `serde_json::Value` to the field's type
(`serde_json::from_value::<T>`), whose result is represented again as a
`JVal` carrying the typed value, or an error message. -/
structure FieldSpec where
  name : String
  pos : Nat
  conv : JVal → Except String JVal

/-- A record schema: the struct's fields in declaration order. -/
structure RecordSchema where
  fields : List FieldSpec

/-- The maximum declared position,
`field_info.iter().map(|(_, _, index)| *index).max().unwrap_or(0)`, `0` for a fieldless struct.  Since the
positions are natural numbers, folding `max` from `0` agrees with Rust's
`max().unwrap_or(0)`. -/
def maxIndex (s : RecordSchema) : Nat :=
  s.fields.foldr (fun f acc => max f.pos acc) 0

/-- A decode-time error of the generated deserializer. -/
inductive DecodeError where
  | insufficientElements (got need : Nat)
  | fieldConversion (field : String) (position : Nat) (cause : String)
  | invalidType (unexpected : String)

/-- The error message rendered for each `DecodeError`, mirroring the format
strings of the generated code:
`serde::de::Error::invalid_length(index, &self)` renders against the
visitor's `expecting` string, and the field-conversion error is built with
`format!("Failed to deserialize field `{}` at index {}: {}", ..)`. -/
def DecodeError.render : DecodeError → String
  | .insufficientElements got need =>
      "invalid length " ++ Nat.repr got ++ ", expected a JSON array with at least "
        ++ Nat.repr need ++ " elements"
  | .fieldConversion field position cause =>
      "Failed to deserialize field `" ++ field ++ "` at index "
        ++ Nat.repr position ++ ": " ++ cause
  | .invalidType unexpected =>
      "invalid type: " ++ unexpected ++ ", expected a JSON array"

/-- The element-reading loop of `visit_seq`:

```
let mut index = 0;
while let Some(value) = seq.next_element::<serde_json::Value>()? {
    if index <= #max_index { array_elements[index] = value; }
    index += 1;
}
```

Arguments: remaining input, `max_index`, the buffer so far, the running
`index`.  Returns the final buffer and the final `index` (element count). -/
def readLoop : List JVal → Nat → List JVal → Nat → List JVal × Nat
  | [], _, buf, idx => (buf, idx)
  | v :: rest, m, buf, idx =>
      readLoop rest m (if idx ≤ m then buf.set idx v else buf) (idx + 1)

/-- The `#(#field_mapping),*` struct literal: for each field in declaration
order, convert `array_elements[idx]` to the field's type, wrapping a
conversion failure into the field-level error; `?` makes the first failure
in declaration order abort the whole construction.  The result record is
the declaration-ordered list of `(field name, converted value)`. -/
def decodeFields : List FieldSpec → List JVal → Except DecodeError (List (String × JVal))
  | [], _ => .ok []
  | f :: rest, buf =>
      match f.conv (buf.getD f.pos JVal.null) with
      | .error e => .error (.fieldConversion f.name f.pos e)
      | .ok v =>
          match decodeFields rest buf with
          | .error e => .error e
          | .ok r => .ok ((f.name, v) :: r)

/-- The whole `visit_seq` body: allocate the buffer
`vec![Value::Null; max_index + 1]`, run the reading loop, fail with
`invalid_length(index, &self)` when `index <= max_index`, then build the
record field by field. -/
def decode (s : RecordSchema) (input : List JVal) :
    Except DecodeError (List (String × JVal)) :=
  let m := maxIndex s
  let res := readLoop input m (List.replicate (m + 1) JVal.null) 0
  if res.2 ≤ m then
    .error (.insufficientElements res.2 (m + 1))
  else
    decodeFields s.fields res.1

/-- The entry point `deserializer.deserialize_seq(ArrayVisitor { .. })` on a
`serde_json::Value` input.  Modelled from the semantics of the external
`serde`/`serde_json` crates: `serde_json`'s `deserialize_seq` invokes the
visitor's `visit_seq` on an array and otherwise reports an invalid-type
error; `ArrayVisitor` implements only `visit_seq`, so no other input shape
can reach the record construction. -/
def deserialize (s : RecordSchema) (v : JVal) :
    Except DecodeError (List (String × JVal)) :=
  match v with
  | .arr elems => decode s elems
  | other => .error (.invalidType (jvalKind other))

/-- A field attribute as seen by the macro: the attribute's path identifier
and, when the attribute parses as a list whose argument is a `usize`
integer literal, that value (`extract_order_index`'s success payload);
`none` when `require_list().parse_args::<Lit>()` or `base10_parse` fails. -/
structure RawAttr where
  ident : String
  payload : Option Nat
deriving DecidableEq

/-- A struct field as seen by the macro: its name and attribute list. -/
structure RawField where
  name : String
  attrs : List RawAttr
deriving DecidableEq

/-- The attribute search `field.attrs.iter().find(|attr| attr.path().is_ident("order"))`. -/
def findOrderAttr (f : RawField) : Option RawAttr :=
  f.attrs.find? (fun a => a.ident == "order")

/-- The helper `extract_order_index`: the attribute's integer-literal payload. -/
def extractOrderIndex (attr : RawAttr) : Option Nat :=
  attr.payload

/-- The metadata-extraction loop of `deserialize_ordered`: for each field
find its `order` attribute and extract the index, panicking (modelled as
`Except.error`) on a missing or invalid attribute.  No other condition —
in particular no duplicate-position check — can fail. -/
def fieldInfo : List RawField → Except String (List (String × Nat))
  | [] => .ok []
  | f :: rest =>
      match findOrderAttr f with
      | none => .error ("Field `" ++ f.name ++ "` is missing #[order(n)] attribute")
      | some attr =>
          match extractOrderIndex attr with
          | none => .error ("Invalid #[order(n)] attribute for field `" ++ f.name ++ "`")
          | some idx =>
              match fieldInfo rest with
              | .error e => .error e
              | .ok l => .ok ((f.name, idx) :: l)

/-- The buffer at the end of the reading loop of one `visit_seq` call. -/
def mkBuffer (m : Nat) (input : List JVal) : List JVal :=
  (readLoop input m (List.replicate (m + 1) JVal.null) 0).1

/-- The conversion attempted for one field of the record. -/
def convertAt (buf : List JVal) (f : FieldSpec) : Except String JVal :=
  f.conv (buf.getD f.pos JVal.null)

/-- The converted value of one field (meaningful when `convertAt` is ok). -/
def convApply (buf : List JVal) (f : FieldSpec) : JVal :=
  match convertAt buf f with
  | .ok v => v
  | .error _ => JVal.null

/-! ## Sample converters, used to instantiate schemas at concrete inputs

These model `serde_json::from_value::<i64>` and `from_value::<String>`:
they succeed exactly on a value of the right JSON kind and otherwise
return an error message, as `serde_json` does. -/

/-- Conversion to a numeric field type. -/
def asNum : JVal → Except String JVal
  | .num n => .ok (.num n)
  | _ => .error "invalid type: expected a number"

/-- Conversion to a string field type. -/
def asStr : JVal → Except String JVal
  | .str s => .ok (.str s)
  | _ => .error "invalid type: expected a string"

/-! ## Concrete schemas, mirroring the structs of the test program -/

/-- The `Person` struct of `json-array-test`: `id` at 0, `name` at 1,
`height` at 2 (the numeric converter standing in for both `i32` and
`f64`). -/
def personSchema : RecordSchema :=
  ⟨[⟨"id", 0, asNum⟩, ⟨"name", 1, asStr⟩, ⟨"height", 2, asNum⟩]⟩

/-- The `OutOfOrderPerson` struct: `id` at 2, `name` at 0, `height` at 1. -/
def outOfOrderSchema : RecordSchema :=
  ⟨[⟨"id", 2, asNum⟩, ⟨"name", 0, asStr⟩, ⟨"height", 1, asNum⟩]⟩

/-- The `SparsePerson` struct: `id` at 0, `name` at 4, `height` at 1. -/
def sparseSchema : RecordSchema :=
  ⟨[⟨"id", 0, asNum⟩, ⟨"name", 4, asStr⟩, ⟨"height", 1, asNum⟩]⟩

/-- A two-field schema declared in position order. -/
def orderedPair : RecordSchema :=
  ⟨[⟨"id", 0, asNum⟩, ⟨"name", 1, asStr⟩]⟩

/-- The same two fields as `orderedPair`, declared in the other order. -/
def swappedPair : RecordSchema :=
  ⟨[⟨"name", 1, asStr⟩, ⟨"id", 0, asNum⟩]⟩

/-- Two fields sharing position 1. -/
def dupSchema : RecordSchema :=
  ⟨[⟨"a", 1, asNum⟩, ⟨"b", 1, asNum⟩]⟩

/-! ## Basic lemmas about the embedding -/

/-- Every declared position is bounded by the schema's `maxIndex`. -/
theorem pos_le_maxIndex {s : RecordSchema} {f : FieldSpec} (hf : f ∈ s.fields) :
    f.pos ≤ maxIndex s := by
  obtain ⟨fields⟩ := s
  unfold maxIndex
  simp only at hf ⊢
  induction hf with
  | head rest => exact le_max_left _ _
  | tail g _ ih => exact le_trans ih (le_max_right _ _)

/-- If every position in the schema is at most `n`, so is `maxIndex`. -/
theorem maxIndex_le {s : RecordSchema} {n : Nat}
    (h : ∀ f ∈ s.fields, f.pos ≤ n) : maxIndex s ≤ n := by
  obtain ⟨fields⟩ := s
  unfold maxIndex
  simp only at h ⊢
  induction fields with
  | nil => exact Nat.zero_le n
  | cons g rest ih =>
      simp only [List.foldr_cons, max_le_iff]
      exact ⟨h g (List.mem_cons_self _ _), ih (fun f hf => h f (List.mem_cons_of_mem _ hf))⟩

/-- The reading loop counts every input element exactly once. -/
theorem readLoop_count (input : List JVal) (m : Nat) (buf : List JVal) (idx : Nat) :
    (readLoop input m buf idx).2 = idx + input.length := by
  induction input generalizing buf idx with
  | nil => simp [readLoop]
  | cons v rest ih =>
      simp only [readLoop, ih, List.length_cons]
      omega

/-- The reading loop never changes the buffer's length. -/
theorem readLoop_length (input : List JVal) (m : Nat) (buf : List JVal) (idx : Nat) :
    (readLoop input m buf idx).1.length = buf.length := by
  induction input generalizing buf idx with
  | nil => simp [readLoop]
  | cons v rest ih =>
      simp only [readLoop, ih]
      split <;> simp

/-- Characterization of the buffer produced by the reading loop: position
`k` holds the input element read at step `k` when `k` lies in the stored
window (`idx ≤ k ≤ m`, within the input), and is untouched otherwise. -/
theorem readLoop_getD (input : List JVal) (m : Nat) (buf : List JVal) (idx k : Nat)
    (hbuf : buf.length = m + 1) :
    (readLoop input m buf idx).1.getD k JVal.null =
      if idx ≤ k ∧ k ≤ m ∧ k < idx + input.length then
        input.getD (k - idx) JVal.null
      else
        buf.getD k JVal.null := by
  induction input generalizing buf idx with
  | nil =>
      rw [readLoop, if_neg (by simp only [List.length_nil]; omega)]
  | cons v rest ih =>
      rw [readLoop]
      rw [ih _ (idx + 1) (by split <;> simp [hbuf])]
      by_cases hk : idx + 1 ≤ k ∧ k ≤ m ∧ k < idx + 1 + rest.length
      · rw [if_pos hk, if_pos (by simp only [List.length_cons]; omega)]
        have hsucc : k - idx = (k - (idx + 1)) + 1 := by omega
        rw [hsucc, List.getD_eq_getElem?_getD, List.getD_eq_getElem?_getD,
          List.getElem?_cons_succ]
      · rw [if_neg hk]
        by_cases hki : k = idx
        · subst hki
          by_cases hkm : k ≤ m
          · rw [if_pos hkm,
              if_pos ⟨le_refl k, hkm, by simp only [List.length_cons]; omega⟩,
              Nat.sub_self, List.getD_eq_getElem?_getD, List.getD_eq_getElem?_getD,
              List.getElem?_set, if_pos rfl, if_pos (by omega),
              List.getElem?_cons_zero]
          · rw [if_neg hkm, if_neg (fun h => hkm h.2.1)]
        · by_cases hcond : idx ≤ k ∧ k ≤ m ∧ k < idx + (v :: rest).length
          · exfalso
            apply hk
            refine ⟨by omega, hcond.2.1, ?_⟩
            have hlen := hcond.2.2
            simp only [List.length_cons] at hlen
            omega
          · rw [if_neg hcond]
            split
            · rw [List.getD_eq_getElem?_getD, List.getD_eq_getElem?_getD,
                List.getElem?_set, if_neg (fun h => hki h.symm)]
            · rfl

/-- Below `maxIndex`, the final buffer holds exactly the input elements
(`Null` where the input is too short, which `getD` also yields). -/
theorem mkBuffer_getD {m k : Nat} (input : List JVal) (hk : k ≤ m) :
    (mkBuffer m input).getD k JVal.null = input.getD k JVal.null := by
  unfold mkBuffer
  rw [readLoop_getD _ _ _ _ _ (List.length_replicate _ _)]
  by_cases hlen : k < input.length
  · rw [if_pos ⟨Nat.zero_le _, hk, by omega⟩, Nat.sub_zero]
  · rw [if_neg (by omega), @List.getD_eq_default _ input JVal.null k (by omega),
      List.getD_eq_getElem?_getD, List.getElem?_replicate]
    split <;> rfl

/-- Unfolding of `decode` through the reading-loop lemmas: the length
check sees the input's length, and field extraction reads `mkBuffer`. -/
theorem decode_eq (s : RecordSchema) (input : List JVal) :
    decode s input =
      if input.length ≤ maxIndex s then
        .error (.insufficientElements input.length (maxIndex s + 1))
      else
        decodeFields s.fields (mkBuffer (maxIndex s) input) := by
  simp only [decode, mkBuffer, readLoop_count, Nat.zero_add]

/-- Field extraction succeeds exactly when every field converts. -/
theorem decodeFields_isOk (fields : List FieldSpec) (buf : List JVal) :
    (decodeFields fields buf).isOk = fields.all (fun f => (convertAt buf f).isOk) := by
  induction fields with
  | nil => rfl
  | cons f rest ih =>
      rw [decodeFields, List.all_cons, ← ih]
      unfold convertAt
      cases f.conv (buf.getD f.pos JVal.null) with
      | error e => rfl
      | ok v => cases decodeFields rest buf <;> rfl

/-- When field extraction succeeds, the record is the declaration-ordered
list of the fields' names paired with their converted values. -/
theorem decodeFields_ok_eq {fields : List FieldSpec} {buf : List JVal}
    {r : List (String × JVal)} (h : decodeFields fields buf = .ok r) :
    r = fields.map (fun f => (f.name, convApply buf f)) := by
  induction fields generalizing r with
  | nil =>
      rw [decodeFields] at h
      cases h
      rfl
  | cons f rest ih =>
      rw [decodeFields] at h
      cases hc : f.conv (buf.getD f.pos JVal.null) with
      | error e => rw [hc] at h; cases h
      | ok v =>
          rw [hc] at h
          cases hr : decodeFields rest buf with
          | error e => rw [hr] at h; cases h
          | ok r0 =>
              rw [hr] at h
              cases h
              rw [List.map_cons, ← ih hr]
              unfold convApply convertAt
              rw [hc]

/-- When every field converts, field extraction succeeds with the
declaration-ordered record. -/
theorem decodeFields_all_ok {fields : List FieldSpec} {buf : List JVal}
    (h : ∀ f ∈ fields, (convertAt buf f).isOk) :
    decodeFields fields buf = .ok (fields.map (fun f => (f.name, convApply buf f))) := by
  induction fields with
  | nil => rfl
  | cons f rest ih =>
      have hf := h f (List.mem_cons_self _ _)
      rw [decodeFields]
      unfold convertAt at hf
      cases hc : f.conv (buf.getD f.pos JVal.null) with
      | error e => rw [hc] at hf; cases hf
      | ok v =>
          rw [ih (fun g hg => h g (List.mem_cons_of_mem _ hg)), List.map_cons]
          unfold convApply convertAt
          rw [hc]

/-- The first field in declaration order whose conversion fails determines
the error of field extraction. -/
theorem decodeFields_first_error {fields : List FieldSpec} {buf : List JVal}
    {f : FieldSpec}
    (h : fields.find? (fun g => !(convertAt buf g).isOk) = some f) :
    ∃ cause, convertAt buf f = .error cause ∧
      decodeFields fields buf = .error (.fieldConversion f.name f.pos cause) := by
  induction fields with
  | nil => cases h
  | cons g rest ih =>
      rw [List.find?_cons] at h
      cases hg : (convertAt buf g).isOk with
      | true =>
          simp only [hg, Bool.not_true] at h
          obtain ⟨cause, hcause, hrec⟩ := ih h
          refine ⟨cause, hcause, ?_⟩
          rw [decodeFields]
          cases hc : g.conv (buf.getD g.pos JVal.null) with
          | error e =>
              rw [show convertAt buf g = Except.error e from hc] at hg
              cases hg
          | ok v => rw [hrec]
      | false =>
          simp only [hg, Bool.not_false] at h
          obtain rfl : g = f := by injection h
          cases hc : g.conv (buf.getD g.pos JVal.null) with
          | ok v =>
              rw [show convertAt buf g = Except.ok v from hc] at hg
              cases hg
          | error e =>
              refine ⟨e, hc, ?_⟩
              rw [decodeFields, hc]

/-- Field extraction only looks at the buffer slots that some field maps
to: buffers agreeing there extract identically. -/
theorem decodeFields_congr {fields : List FieldSpec} {buf₁ buf₂ : List JVal}
    (h : ∀ f ∈ fields, buf₁.getD f.pos JVal.null = buf₂.getD f.pos JVal.null) :
    decodeFields fields buf₁ = decodeFields fields buf₂ := by
  induction fields with
  | nil => rfl
  | cons f rest ih =>
      rw [decodeFields, decodeFields, h f (List.mem_cons_self _ _),
        ih (fun g hg => h g (List.mem_cons_of_mem _ hg))]

/-! ## The test program's scenarios, checked against the embedding -/

/-- Decoding `Person` from `[1, "Jane Doe", 1.75]` (test case 2 of `main.rs`). -/
theorem scenario_person_in_order :
    decode personSchema [JVal.num 1, JVal.str "Jane Doe", JVal.num 175] =
    .ok [("id", JVal.num 1), ("name", JVal.str "Jane Doe"),
      ("height", JVal.num 175)] := rfl

/-- Decoding `OutOfOrderPerson` from `["Alice Smith", 1.65, 42]` (test case 3). -/
theorem scenario_person_out_of_order :
    decode outOfOrderSchema [JVal.str "Alice Smith", JVal.num 165, JVal.num 42] =
    .ok [("id", JVal.num 42), ("name", JVal.str "Alice Smith"),
      ("height", JVal.num 165)] := rfl

/-- Decoding `SparsePerson` from the six-element input with junk at the unmapped
and trailing positions (test case 4). -/
theorem scenario_person_sparse :
    decode sparseSchema
      [JVal.num 99, JVal.num 172, JVal.str "ignore me", JVal.str "also ignore",
       JVal.str "Bob Johnson", JVal.str "more to ignore"] =
    .ok [("id", JVal.num 99), ("name", JVal.str "Bob Johnson"),
      ("height", JVal.num 172)] := rfl

/-- Decoding `SparsePerson` from the truncated two-element input. -/
theorem scenario_person_sparse_truncated :
    decode sparseSchema [JVal.num 99, JVal.num 172] =
    .error (.insufficientElements 2 5) := rfl

/-- A number where the `name` string is expected. -/
theorem scenario_conversion_failure :
    decode orderedPair [JVal.num 1, JVal.num 2] =
    .error (.fieldConversion "name" 1 "invalid type: expected a string") := rfl

/-- Reading an in-bounds index of a mapped list with `getD`. -/
theorem getD_map_fin {α β : Type} (l : List α) (g : α → β) (i : Fin l.length) (d : β) :
    (l.map g).getD i d = g (l.get i) := by
  rw [List.getD_eq_getElem?_getD, List.getElem?_map, List.getElem?_eq_getElem i.isLt]
  rfl

/-- The result of `find?` only depends on the predicate's values on the list. -/
theorem find?_congr_mem {α : Type} {p q : α → Bool} {l : List α}
    (h : ∀ a ∈ l, p a = q a) : l.find? p = l.find? q := by
  induction l with
  | nil => rfl
  | cons a l ih =>
      rw [List.find?_cons, List.find?_cons, h a (List.mem_cons_self _ _),
        ih (fun b hb => h b (List.mem_cons_of_mem _ hb))]

/-- On a successful decode, the record has one entry per field, and entry
`i` is the `i`-th field's name paired with the value obtained by converting
the input element at that field's declared position. -/
theorem decode_ok_entry {s : RecordSchema} {input : List JVal}
    {r : List (String × JVal)} (hdec : decode s input = .ok r)
    (i : Fin s.fields.length) :
    r.length = s.fields.length ∧
    (r.getD i ("", JVal.null)).1 = (s.fields.get i).name ∧
    (s.fields.get i).conv (input.getD (s.fields.get i).pos JVal.null) =
      .ok (r.getD i ("", JVal.null)).2 := by
  rw [decode_eq] at hdec
  by_cases hlen : input.length ≤ maxIndex s
  · rw [if_pos hlen] at hdec; cases hdec
  · rw [if_neg hlen] at hdec
    have hmem : s.fields.get i ∈ s.fields := List.get_mem _ _ _
    have hall := decodeFields_isOk s.fields (mkBuffer (maxIndex s) input)
    rw [hdec] at hall
    have hoki : (convertAt (mkBuffer (maxIndex s) input) (s.fields.get i)).isOk = true :=
      List.all_eq_true.mp hall.symm _ hmem
    have hconv_eq : convertAt (mkBuffer (maxIndex s) input) (s.fields.get i)
        = (s.fields.get i).conv (input.getD (s.fields.get i).pos JVal.null) := by
      unfold convertAt
      rw [mkBuffer_getD input (pos_le_maxIndex hmem)]
    have hr := decodeFields_ok_eq hdec
    subst hr
    refine ⟨by simp, ?_, ?_⟩
    · rw [getD_map_fin]
    · rw [getD_map_fin]
      cases hc : (s.fields.get i).conv (input.getD (s.fields.get i).pos JVal.null) with
      | error e =>
          rw [hc] at hconv_eq
          rw [hconv_eq] at hoki
          cases hoki
      | ok v =>
          rw [hc] at hconv_eq
          unfold convApply
          rw [hconv_eq]

/-! ## Claims -/

/-- C1: for every schema with maximum declared position `M`, decoding an
input of exactly `M + 1` elements whose values all convert to the
corresponding fields' types succeeds and yields a record in which each
field's value is the (successful) conversion of the input element at that
field's declared position. -/
theorem spec_c1_exact_length_decode (s : RecordSchema) (input : List JVal)
    (hlen : input.length = maxIndex s + 1)
    (hconv : ∀ f ∈ s.fields, (f.conv (input.getD f.pos JVal.null)).isOk = true) :
    ∃ r, decode s input = .ok r ∧ r.length = s.fields.length ∧
      ∀ i : Fin s.fields.length,
        (r.getD i ("", JVal.null)).1 = (s.fields.get i).name ∧
        (s.fields.get i).conv (input.getD (s.fields.get i).pos JVal.null) =
          .ok (r.getD i ("", JVal.null)).2 := by
  have hok : ∀ f ∈ s.fields, (convertAt (mkBuffer (maxIndex s) input) f).isOk = true := by
    intro f hf
    unfold convertAt
    rw [mkBuffer_getD input (pos_le_maxIndex hf)]
    exact hconv f hf
  have hdec : decode s input =
      .ok (s.fields.map (fun f => (f.name, convApply (mkBuffer (maxIndex s) input) f))) := by
    rw [decode_eq, if_neg (by omega), decodeFields_all_ok hok]
  exact ⟨_, hdec, by simp,
    fun i => ⟨(decode_ok_entry hdec i).2.1, (decode_ok_entry hdec i).2.2⟩⟩

/-- C1 witness: the in-order `Person` scenario of the test program. -/
theorem spec_c1_witness :
    ∃ r, decode personSchema [JVal.num 1, JVal.str "Jane Doe", JVal.num 175] = .ok r ∧
      r.length = personSchema.fields.length ∧
      ∀ i : Fin personSchema.fields.length,
        (r.getD i ("", JVal.null)).1 = (personSchema.fields.get i).name ∧
        (personSchema.fields.get i).conv
            ([JVal.num 1, JVal.str "Jane Doe", JVal.num 175].getD
              (personSchema.fields.get i).pos JVal.null) =
          .ok (r.getD i ("", JVal.null)).2 :=
  spec_c1_exact_length_decode personSchema
    [JVal.num 1, JVal.str "Jane Doe", JVal.num 175] rfl
    (by intro f hf; fin_cases hf <;> rfl)

/-- C2: for every schema with maximum declared position `M`, an input with
fewer than `M + 1` elements makes decoding fail with the
insufficient-elements error carrying the actual count and `M + 1`, and no
record is returned. -/
theorem spec_c2_insufficient_elements (s : RecordSchema) (input : List JVal)
    (h : input.length < maxIndex s + 1) :
    decode s input = .error (.insufficientElements input.length (maxIndex s + 1)) ∧
    ∀ r, decode s input ≠ .ok r := by
  have hd : decode s input =
      .error (.insufficientElements input.length (maxIndex s + 1)) := by
    rw [decode_eq, if_pos (by omega)]
  exact ⟨hd, fun r hr => by rw [hd] at hr; cases hr⟩

/-- C2 witness: the truncated `SparsePerson` scenario (got 2, need 5). -/
theorem spec_c2_witness :
    decode sparseSchema [JVal.num 99, JVal.num 172] =
      .error (.insufficientElements 2 5) ∧
    ∀ r, decode sparseSchema [JVal.num 99, JVal.num 172] ≠ .ok r :=
  spec_c2_insufficient_elements sparseSchema [JVal.num 99, JVal.num 172] (by decide)

/-- C4: for every schema with maximum declared position `M`, two inputs of
length at least `M + 1` that agree on their first `M + 1` elements decode
identically, and the reading loop still consumes every element of the
input. -/
theorem spec_c4_trailing_elements_ignored (s : RecordSchema) (in1 in2 : List JVal)
    (h1 : maxIndex s + 1 ≤ in1.length) (h2 : maxIndex s + 1 ≤ in2.length)
    (hagree : in1.take (maxIndex s + 1) = in2.take (maxIndex s + 1)) :
    decode s in1 = decode s in2 ∧
    (readLoop in1 (maxIndex s) (List.replicate (maxIndex s + 1) JVal.null) 0).2 =
      in1.length := by
  refine ⟨?_, by rw [readLoop_count, Nat.zero_add]⟩
  rw [decode_eq, decode_eq, if_neg (by omega), if_neg (by omega)]
  apply decodeFields_congr
  intro f hf
  rw [mkBuffer_getD in1 (pos_le_maxIndex hf), mkBuffer_getD in2 (pos_le_maxIndex hf)]
  have hp : f.pos < maxIndex s + 1 := Nat.lt_succ_of_le (pos_le_maxIndex hf)
  have htake := congrArg (fun l : List JVal => l[f.pos]?) hagree
  simp only [List.getElem?_take] at htake
  rw [if_pos hp, if_pos hp] at htake
  rw [List.getD_eq_getElem?_getD, List.getD_eq_getElem?_getD, htake]

/-- C4 witness: the `SparsePerson` input with and without its trailing
junk decodes identically, and the loop count equals the full length 6. -/
theorem spec_c4_witness :
    decode sparseSchema
        [JVal.num 99, JVal.num 172, JVal.str "ignore me", JVal.str "also ignore",
         JVal.str "Bob Johnson", JVal.str "more to ignore"] =
      decode sparseSchema
        [JVal.num 99, JVal.num 172, JVal.str "ignore me", JVal.str "also ignore",
         JVal.str "Bob Johnson"] ∧
    (readLoop
        [JVal.num 99, JVal.num 172, JVal.str "ignore me", JVal.str "also ignore",
         JVal.str "Bob Johnson", JVal.str "more to ignore"]
        (maxIndex sparseSchema)
        (List.replicate (maxIndex sparseSchema + 1) JVal.null) 0).2 = 6 :=
  spec_c4_trailing_elements_ignored sparseSchema
    [JVal.num 99, JVal.num 172, JVal.str "ignore me", JVal.str "also ignore",
     JVal.str "Bob Johnson", JVal.str "more to ignore"]
    [JVal.num 99, JVal.num 172, JVal.str "ignore me", JVal.str "also ignore",
     JVal.str "Bob Johnson"]
    (by decide) (by decide) rfl

/-- C6: for inputs of sufficient length, the decode outcome depends only
on the input values at mapped positions; unmapped (sparse) positions never
by themselves change the outcome. -/
theorem spec_c6_sparse_positions_harmless (s : RecordSchema) (in1 in2 : List JVal)
    (h1 : maxIndex s + 1 ≤ in1.length) (h2 : maxIndex s + 1 ≤ in2.length)
    (hmapped : ∀ f ∈ s.fields,
      in1.getD f.pos JVal.null = in2.getD f.pos JVal.null) :
    decode s in1 = decode s in2 := by
  rw [decode_eq, decode_eq, if_neg (by omega), if_neg (by omega)]
  apply decodeFields_congr
  intro f hf
  rw [mkBuffer_getD in1 (pos_le_maxIndex hf), mkBuffer_getD in2 (pos_le_maxIndex hf)]
  exact hmapped f hf

/-- C6 witness: changing only the unmapped positions 2 and 3 of the
`SparsePerson` input leaves the decode result unchanged. -/
theorem spec_c6_witness :
    decode sparseSchema
        [JVal.num 99, JVal.num 172, JVal.str "ignore me", JVal.str "also ignore",
         JVal.str "Bob Johnson"] =
      decode sparseSchema
        [JVal.num 99, JVal.num 172, JVal.null, JVal.bool true,
         JVal.str "Bob Johnson"] :=
  spec_c6_sparse_positions_harmless sparseSchema
    [JVal.num 99, JVal.num 172, JVal.str "ignore me", JVal.str "also ignore",
     JVal.str "Bob Johnson"]
    [JVal.num 99, JVal.num 172, JVal.null, JVal.bool true, JVal.str "Bob Johnson"]
    (by decide) (by decide) (by intro f hf; fin_cases hf <;> rfl)

/-- C7: a fieldless schema has maximum position 0, decoding the empty
input fails with the insufficient-elements error (got 0, need 1), and any
input of one or more elements decodes to the empty record. -/
theorem spec_c7_empty_schema :
    maxIndex ⟨[]⟩ = 0 ∧
    decode ⟨[]⟩ [] = .error (.insufficientElements 0 1) ∧
    ∀ input : List JVal, 1 ≤ input.length → decode ⟨[]⟩ input = .ok [] := by
  refine ⟨rfl, rfl, fun input h => ?_⟩
  rw [decode_eq, if_neg (by simp only [maxIndex, List.foldr_nil]; omega)]
  rfl

/-- C7 witness: a one-element input decodes to the empty record. -/
theorem spec_c7_witness : decode ⟨[]⟩ [JVal.null] = .ok [] :=
  spec_c7_empty_schema.2.2 [JVal.null] (by decide)

/-- C3: two schemas with the same field→position mapping (the same fields
as a multiset) but different declaration orders decode every input to the
same outcome: success on one is success on the other, and the resulting
records hold the same field entries (as a permutation, i.e. field-wise
equal values). -/
theorem spec_c3_declaration_order_independent (s₁ s₂ : RecordSchema)
    (hperm : s₁.fields.Perm s₂.fields) (input : List JVal) :
    ((decode s₁ input).isOk = (decode s₂ input).isOk) ∧
    ∀ r₁ r₂, decode s₁ input = .ok r₁ → decode s₂ input = .ok r₂ →
      r₁.Perm r₂ := by
  have hmax : maxIndex s₁ = maxIndex s₂ :=
    Nat.le_antisymm
      (maxIndex_le (fun f hf => pos_le_maxIndex (hperm.mem_iff.mp hf)))
      (maxIndex_le (fun f hf => pos_le_maxIndex (hperm.mem_iff.mpr hf)))
  constructor
  · rw [decode_eq, decode_eq, hmax]
    by_cases hlen : input.length ≤ maxIndex s₂
    · rw [if_pos hlen, if_pos hlen]
    · rw [if_neg hlen, if_neg hlen, decodeFields_isOk, decodeFields_isOk]
      apply Bool.eq_iff_iff.mpr
      rw [List.all_eq_true, List.all_eq_true]
      exact ⟨fun h f hf => h f (hperm.mem_iff.mpr hf),
        fun h f hf => h f (hperm.mem_iff.mp hf)⟩
  · intro r₁ r₂ hr₁ hr₂
    rw [decode_eq] at hr₁ hr₂
    by_cases hlen : input.length ≤ maxIndex s₁
    · rw [if_pos hlen] at hr₁; cases hr₁
    · rw [if_neg hlen] at hr₁
      rw [if_neg (by rw [← hmax]; exact hlen)] at hr₂
      have e₁ := decodeFields_ok_eq hr₁
      have e₂ := decodeFields_ok_eq hr₂
      subst e₁
      subst e₂
      rw [hmax]
      exact hperm.map _

/-- C3 witness: `orderedPair` and `swappedPair` assign the same mapping;
on the input `[7, "x"]` both succeed with the same field entries. -/
theorem spec_c3_witness :
    ((decode orderedPair [JVal.num 7, JVal.str "x"]).isOk =
      (decode swappedPair [JVal.num 7, JVal.str "x"]).isOk) ∧
    ∀ r₁ r₂, decode orderedPair [JVal.num 7, JVal.str "x"] = .ok r₁ →
      decode swappedPair [JVal.num 7, JVal.str "x"] = .ok r₂ → r₁.Perm r₂ :=
  spec_c3_declaration_order_independent orderedPair swappedPair
    (by simp only [orderedPair, swappedPair]; exact List.Perm.swap _ _ _)
    [JVal.num 7, JVal.str "x"]

/-- C5: when the input is long enough to pass the length check and some
field's input element fails to convert, decoding returns the
field-conversion error of the first failing field in declaration order,
carrying that field's name and position (which the rendered message
spells out), and no record is returned. -/
theorem spec_c5_first_conversion_error (s : RecordSchema) (input : List JVal)
    (hlen : maxIndex s + 1 ≤ input.length) (f : FieldSpec)
    (hfind : s.fields.find?
        (fun g => !(g.conv (input.getD g.pos JVal.null)).isOk) = some f) :
    ∃ cause, f.conv (input.getD f.pos JVal.null) = .error cause ∧
      decode s input = .error (.fieldConversion f.name f.pos cause) ∧
      (DecodeError.fieldConversion f.name f.pos cause).render =
        "Failed to deserialize field `" ++ f.name ++ "` at index "
          ++ Nat.repr f.pos ++ ": " ++ cause ∧
      ∀ r, decode s input ≠ .ok r := by
  have hpred : ∀ g ∈ s.fields,
      (!(g.conv (input.getD g.pos JVal.null)).isOk) =
        (!(convertAt (mkBuffer (maxIndex s) input) g).isOk) := by
    intro g hg
    unfold convertAt
    rw [mkBuffer_getD input (pos_le_maxIndex hg)]
  rw [find?_congr_mem hpred] at hfind
  have hf_mem : f ∈ s.fields := List.mem_of_find?_eq_some hfind
  obtain ⟨cause, hcause, hdf⟩ := decodeFields_first_error hfind
  have hcause' : f.conv (input.getD f.pos JVal.null) = .error cause := by
    unfold convertAt at hcause
    rw [mkBuffer_getD input (pos_le_maxIndex hf_mem)] at hcause
    exact hcause
  have hdec : decode s input = .error (.fieldConversion f.name f.pos cause) := by
    rw [decode_eq, if_neg (by omega), hdf]
  exact ⟨cause, hcause', hdec, rfl, fun r hr => by rw [hdec] at hr; cases hr⟩

/-- C5 witness: on `[1, 2, 3]` the `Person` schema's `name` field (a
string at position 1) is the first failing field. -/
theorem spec_c5_witness :
    ∃ cause,
      asStr ([JVal.num 1, JVal.num 2, JVal.num 3].getD 1 JVal.null) = .error cause ∧
      decode personSchema [JVal.num 1, JVal.num 2, JVal.num 3] =
        .error (.fieldConversion "name" 1 cause) ∧
      (DecodeError.fieldConversion "name" 1 cause).render =
        "Failed to deserialize field `" ++ "name" ++ "` at index "
          ++ Nat.repr 1 ++ ": " ++ cause ∧
      ∀ r, decode personSchema [JVal.num 1, JVal.num 2, JVal.num 3] ≠ .ok r :=
  spec_c5_first_conversion_error personSchema [JVal.num 1, JVal.num 2, JVal.num 3]
    (by decide) ⟨"name", 1, asStr⟩ rfl

/-- C8: the metadata extraction accepts any field list whose fields each
carry a valid `order` attribute — duplicate positions are not rejected —
and when two distinct fields declare the same position, a successful
decode gives both fields the value converted from the one input element at
that position. -/
theorem spec_c8_duplicate_positions :
    (∀ rfs : List RawField,
      (∀ f ∈ rfs, ∃ a, findOrderAttr f = some a ∧
        ∃ idx, extractOrderIndex a = some idx) →
      ∃ l, fieldInfo rfs = Except.ok l) ∧
    (∀ (s : RecordSchema) (input : List JVal) (r : List (String × JVal))
        (i j : Fin s.fields.length), i ≠ j →
      (s.fields.get i).pos = (s.fields.get j).pos →
      decode s input = .ok r →
      r.length = s.fields.length ∧
      (s.fields.get i).conv (input.getD (s.fields.get i).pos JVal.null) =
        .ok (r.getD i ("", JVal.null)).2 ∧
      (s.fields.get j).conv (input.getD (s.fields.get i).pos JVal.null) =
        .ok (r.getD j ("", JVal.null)).2) := by
  constructor
  · intro rfs hall
    induction rfs with
    | nil => exact ⟨[], rfl⟩
    | cons f rest ih =>
        obtain ⟨a, ha, idx, hidx⟩ := hall f (List.mem_cons_self _ _)
        obtain ⟨l, hl⟩ := ih (fun g hg => hall g (List.mem_cons_of_mem _ hg))
        exact ⟨(f.name, idx) :: l, by simp only [fieldInfo, ha, hidx, hl]⟩
  · intro s input r i j hij hpos hdec
    obtain ⟨hlen, -, hconv_i⟩ := decode_ok_entry hdec i
    obtain ⟨-, -, hconv_j⟩ := decode_ok_entry hdec j
    refine ⟨hlen, hconv_i, ?_⟩
    rw [hpos]
    exact hconv_j

/-- C8 witness: two fields `a` and `b` both at position 1 pass metadata
extraction, and on `["pad", 7]` both receive the conversion of the element
at position 1. -/
theorem spec_c8_witness :
    (∃ l, fieldInfo [⟨"a", [⟨"order", some 1⟩]⟩, ⟨"b", [⟨"order", some 1⟩]⟩]
        = Except.ok l) ∧
    ([("a", JVal.num 7), ("b", JVal.num 7)].length = dupSchema.fields.length ∧
      asNum ([JVal.str "pad", JVal.num 7].getD 1 JVal.null) =
        .ok ([("a", JVal.num 7), ("b", JVal.num 7)].getD 0 ("", JVal.null)).2 ∧
      asNum ([JVal.str "pad", JVal.num 7].getD 1 JVal.null) =
        .ok ([("a", JVal.num 7), ("b", JVal.num 7)].getD 1 ("", JVal.null)).2) :=
  ⟨spec_c8_duplicate_positions.1
      [⟨"a", [⟨"order", some 1⟩]⟩, ⟨"b", [⟨"order", some 1⟩]⟩]
      (by intro f hf; fin_cases hf <;> exact ⟨⟨"order", some 1⟩, rfl, 1, rfl⟩),
    spec_c8_duplicate_positions.2 dupSchema [JVal.str "pad", JVal.num 7]
      [("a", JVal.num 7), ("b", JVal.num 7)]
      ⟨0, by decide⟩ ⟨1, by decide⟩ (by decide) rfl rfl⟩

/-- C9: a non-sequence input (anything other than a JSON array) always
produces an error and never a record: the generated deserializer requests
a sequence and its visitor accepts only sequences. -/
theorem spec_c9_non_sequence_rejected (s : RecordSchema) (v : JVal)
    (h : ∀ elems, v ≠ JVal.arr elems) :
    deserialize s v = .error (.invalidType (jvalKind v)) ∧
    ∀ r, deserialize s v ≠ .ok r := by
  cases v with
  | arr elems => exact absurd rfl (h elems)
  | null => exact ⟨rfl, fun r hr => Except.noConfusion hr⟩
  | bool b => exact ⟨rfl, fun r hr => Except.noConfusion hr⟩
  | num n => exact ⟨rfl, fun r hr => Except.noConfusion hr⟩
  | str t => exact ⟨rfl, fun r hr => Except.noConfusion hr⟩
  | obj kvs => exact ⟨rfl, fun r hr => Except.noConfusion hr⟩

/-- C9 witness: a JSON object input is rejected as an invalid type. -/
theorem spec_c9_witness :
    deserialize personSchema (JVal.obj [("id", JVal.num 1)]) =
      .error (.invalidType "map") ∧
    ∀ r, deserialize personSchema (JVal.obj [("id", JVal.num 1)]) ≠ .ok r :=
  spec_c9_non_sequence_rejected personSchema (JVal.obj [("id", JVal.num 1)])
    (fun _ h => JVal.noConfusion h)

/-- C10: one decode call terminates on every finite input — the reading
loop consumes exactly one element per iteration, ending at the input's
length — and returns either a record or exactly one error, never both. -/
theorem spec_c10_decode_total (s : RecordSchema) (input : List JVal) :
    (readLoop input (maxIndex s) (List.replicate (maxIndex s + 1) JVal.null) 0).2 =
      input.length ∧
    ((∃ r, decode s input = .ok r) ∧ (∀ e, decode s input ≠ .error e) ∨
      (∃ e, decode s input = .error e) ∧ (∀ r, decode s input ≠ .ok r)) := by
  refine ⟨by rw [readLoop_count, Nat.zero_add], ?_⟩
  cases hd : decode s input with
  | ok r => exact Or.inl ⟨⟨r, rfl⟩, fun e he => Except.noConfusion he⟩
  | error e => exact Or.inr ⟨⟨e, rfl⟩, fun r hr => Except.noConfusion hr⟩

end JsonArrayDerive
